import Mathlib

/-!
Shallow embedding of `mailer.py` (repository anzodev/mailer).

The Python program is a single file.  We model:

* `Sender` / `Recipient`: the two dataclasses.  `@dataclass` generates
  `__eq__` comparing all fields; both classes override `__hash__` to hash
  the email only.  We model `__eq__` as `pyEq` and `__hash__` as `pyHash`,
  parameterised by an arbitrary string hash.
* `UniqueJournal.add`: the file-backed journal; its state is the list of
  rows.  `add` is a read-modify-write: if the row is present it returns,
  otherwise it appends and saves.  `get_rows` returns the state.
* `split_recipients_by_senders`: the round-robin distributor.  The Python
  `while` loop may fail to terminate (when `senders` is empty and the
  queue is not), so the loop is modelled with explicit fuel and returns
  `none` when the fuel runs out.  The `itertools.cycle` position is the
  `pos` argument; `deque.popleft` is head decomposition of the queue.
* message composition (`make_email_message` and friends): Python dict
  indexing `v['key']` raises `KeyError` when missing, so lookups return
  `Option` and composition returns `Option EmailMessage`.
* `make_email_and_send`: the per-task send; the send outcome and the
  journal-write outcome are Boolean oracles (`sendOk`, `addOk`); an
  exception escaping the task is `Except.error`.
* the run-loop body (`main`'s `while True`): `computePending`,
  `scheduleTasks` (`scheduler.enter` calls), `sortTasks` (`sched`
  executes events ordered by time, ties by insertion sequence),
  `runPass`, `terminationCheck` and `loopIter`.
-/

namespace Mailer

/-- `Sender` dataclass of `mailer.py`: `{email, password}`. -/
structure Sender where
  email : String
  password : String
deriving DecidableEq

/-- `Recipient` dataclass of `mailer.py`: `{email, variables}`.  The Python
`variables` is a `dict`; we model it as an association list. -/
structure Recipient where
  email : String
  vars : List (String × String)
deriving DecidableEq

/-- Python `==` on `Sender`: generated by `@dataclass`, compares all fields
(email and password). -/
def Sender.pyEq (a b : Sender) : Bool :=
  a.email == b.email && a.password == b.password

/-- Python `Sender.__hash__`: `hash(self.email)`, for an arbitrary string
hash function. -/
def Sender.pyHash (strHash : String → Int) (s : Sender) : Int :=
  strHash s.email

/-- Python dict lookup `vs[k]` as an `Option` (a missing key raises
`KeyError` in Python). -/
def varsLookup (vs : List (String × String)) (k : String) : Option String :=
  (vs.find? (fun p => p.1 == k)).map Prod.snd

/-- Python `==` on two dicts: same keys, and the same value at every key. -/
def varsDictEq (a b : List (String × String)) : Bool :=
  a.all (fun p => varsLookup b p.1 == some p.2) &&
    b.all (fun p => varsLookup a p.1 == some p.2)

/-- Python `==` on `Recipient`: generated by `@dataclass`, compares email
and the `variables` dict. -/
def Recipient.pyEq (a b : Recipient) : Bool :=
  a.email == b.email && varsDictEq a.vars b.vars

/-- Python `Recipient.__hash__`: `hash(self.email)`. -/
def Recipient.pyHash (strHash : String → Int) (r : Recipient) : Int :=
  strHash r.email

namespace UniqueJournal

/-- `UniqueJournal.add`: read the rows; if `row` is present, return;
otherwise append it and save.  The journal state is the row list. -/
def add (rows : List String) (row : String) : List String :=
  if row ∈ rows then rows else rows ++ [row]

/-- `UniqueJournal.get_rows`: returns the journal state. -/
def get_rows (rows : List String) : List String := rows

end UniqueJournal

/-- Journal states produced by the journal's own operations: the backing
file is created empty on first run, and every mutation goes through
`UniqueJournal.add`. -/
inductive JournalReachable : List String → Prop where
  | init : JournalReachable []
  | step (rows : List String) (x : String) :
      JournalReachable rows → JournalReachable (UniqueJournal.add rows x)

/-- The distribution plan: the Python `Dict[Sender, List[Recipient]]` in
insertion order. -/
abbrev Plan := List (Sender × List Recipient)

/-- One step of the dict comprehension `{i: [] for i in senders}`: a
repeated key keeps its original position (its value is `[]` either way). -/
def dictInsertEmpty (d : Plan) (s : Sender) : Plan :=
  if d.any (fun p => Sender.pyEq p.1 s) then d else d ++ [(s, [])]

/-- `result = {i: [] for i in senders}`. -/
def dictInit (senders : List Sender) : Plan :=
  senders.foldl dictInsertEmpty []

/-- `result[sender].append(r)`: append `r` to the value of the first key
equal (Python `==`) to `s`.  Python raises `KeyError` when the key is
missing; in `split_recipients_by_senders` every sender is a key of the
dict (`dictInit` inserts all of them), so that branch is unreachable and
modelled as the identity. -/
def dictAppend (d : Plan) (s : Sender) (r : Recipient) : Plan :=
  match d with
  | [] => []
  | (k, v) :: rest =>
      if Sender.pyEq k s then (k, v ++ [r]) :: rest
      else (k, v) :: dictAppend rest s r

/-- The sender produced by `next(senders_cycle)` when the cycle over the
non-empty list `s0 :: ss` has been advanced `pos` times. -/
def cycleGet (s0 : Sender) (ss : List Sender) (pos : Nat) : Sender :=
  (s0 :: ss).get ⟨pos % (s0 :: ss).length, Nat.mod_lt pos (Nat.succ_pos ss.length)⟩

/-- The inner `for sender in senders_cycle` loop for a non-empty sender
list: pop recipients off the queue, appending each to the cycling
sender's list, until the queue is empty (`IndexError` from `popleft`,
caught, `break`).  Returns the dict and the final cycle position. -/
def innerFor (s0 : Sender) (ss : List Sender) :
    List Recipient → Plan → Nat → Plan × Nat
  | [], d, pos => (d, pos)
  | r :: rest, d, pos =>
      innerFor s0 ss rest (dictAppend d (cycleGet s0 ss pos) r) (pos + 1)

/-- The `while len(recipients_queue) != 0` loop, with explicit fuel (one
unit per iteration of the `while` head).  With an empty sender list the
inner `for` over `itertools.cycle([])` runs zero times and the queue
never shrinks, so the Python loop spins forever; here the fuel runs out
and the result is `none`. -/
def whileLoop (senders : List Sender) (fuel : Nat) (d : Plan)
    (queue : List Recipient) (pos : Nat) : Option Plan :=
  match fuel with
  | 0 => none
  | fuel' + 1 =>
    match queue with
    | [] => some d
    | q =>
      match senders with
      | [] => whileLoop [] fuel' d q pos
      | s0 :: ss =>
          let res := innerFor s0 ss q d pos
          whileLoop (s0 :: ss) fuel' res.1 [] res.2

/-- `split_recipients_by_senders(senders, recipients)`, with fuel for the
`while` loop. -/
def split_recipients_by_senders (fuel : Nat) (senders : List Sender)
    (recipients : List Recipient) : Option Plan :=
  whileLoop senders fuel (dictInit senders) recipients 0

/-- `split_recipients_by_senders(senders, recipients)` returns (with some
amount of fuel) rather than spinning forever. -/
def splitTerminates (senders : List Sender) (recipients : List Recipient) : Prop :=
  ∃ fuel plan, split_recipients_by_senders fuel senders recipients = some plan

/-- Python `result[s]` on the final dict, as an `Option`. -/
def planLookup (d : Plan) (s : Sender) : Option (List Recipient) :=
  (d.find? (fun p => Sender.pyEq p.1 s)).map Prod.snd

/-- The recipients of `q` that the round-robin walk starting at cycle
position `pos` hands to the `j`-th of `n` senders: the `i`-th element of
`q` (0-indexed) lands in bucket `(pos + i) % n`, preserving input order. -/
def rrFrom (n pos : Nat) (q : List Recipient) (j : Nat) : List Recipient :=
  match q with
  | [] => []
  | r :: rest => (if pos % n == j then [r] else []) ++ rrFrom n (pos + 1) rest j

/-- The `j`-th sender's round-robin share of `R`: the `i`-th recipient of
`R` with `i % n = j`, in input order. -/
def rrAssign (n : Nat) (R : List Recipient) (j : Nat) : List Recipient :=
  rrFrom n 0 R j

/-- Value lists of the plan during the round-robin walk: starting from
`vals`, append each queue element to the list at index `pos % n`,
advancing `pos`.  (Proof companion of `innerFor` on the value lists.) -/
def valsRR (n : Nat) : List (List Recipient) → Nat → List Recipient → List (List Recipient)
  | vals, _, [] => vals
  | vals, pos, r :: rest =>
      valsRR n (vals.set (pos % n) (vals.getD (pos % n) [] ++ [r])) (pos + 1) rest

/-- `remaining_recipients = [r for r in recipients if r.email not in
processed_emails.get_rows()]`. -/
def computePending (recipients : List Recipient) (rows : List String) : List Recipient :=
  recipients.filter (fun r => !(rows.contains r.email))

/-- One `scheduler.enter(i * 1560, 1, make_email_and_send, argument)`
event: its relative offset, the sender, and the recipient. -/
structure Task where
  offset : Nat
  sender : Sender
  recipient : Recipient
deriving DecidableEq

/-- The events entered for one sender: `limit = min(len(part), 50); for i
in range(limit): scheduler.enter(i * 1560, 1, ..., (sender, part[i],
...))`. -/
def tasksFor (s : Sender) (part : List Recipient) : List Task :=
  ((part.take 50).enum).map (fun p => { offset := p.1 * 1560, sender := s, recipient := p.2 })

/-- All events entered for one pass, walking the plan in dict insertion
order. -/
def scheduleTasks (plan : Plan) : List Task :=
  plan.foldl (fun acc e => acc ++ tasksFor e.1 e.2) []

/-- Insert a task after every task of equal-or-smaller offset: with
`sortTasks` this yields exactly `sched`'s execution order, which sorts by
(time, priority, insertion sequence) — all priorities are 1 here. -/
def insertTask (a : Task) : List Task → List Task
  | [] => [a]
  | b :: l => if a.offset < b.offset then a :: b :: l else b :: insertTask a l

/-- `scheduler.run()`'s execution order of the entered events:
non-decreasing offset, ties in insertion order. -/
def sortTasks (l : List Task) : List Task :=
  l.foldl (fun acc a => insertTask a acc) []

/-- Run the tasks of one pass in execution order over the journal.  Each
task is `make_email_and_send`: on send success the recipient's email is
added to the journal, on send failure the journal is untouched.  `ok`
tells whether the send for a (sender, recipient) pair succeeds.  (A
journal write that raises also leaves the state unchanged, so `ok`
covers those journal evolutions too.) -/
def runPass (tasks : List Task) (ok : Sender → Recipient → Bool)
    (rows : List String) : List String :=
  (sortTasks tasks).foldl
    (fun acc t => if ok t.sender t.recipient then UniqueJournal.add acc t.recipient.email else acc)
    rows

/-- `message["Subject"]`: raises `KeyError` when `conf_name` or
`conf_acronym` is missing. -/
def make_message_subject (r : Recipient) : Option String := do
  let name ← varsLookup r.vars "conf_name"
  let acr ← varsLookup r.vars "conf_acronym"
  pure s!"Conference “{name} ({acr})” Survey"

/-- `make_message_from(sender_email)`. -/
def make_message_from (senderEmail : String) : String :=
  s!"Conference Committee <{senderEmail}>"

/-- `make_message_body(recipient)` (the `textwrap.dedent`ed template):
raises `KeyError` when `conf_name`, `conf_acronym` or `conf_year` is
missing. -/
def make_message_body (r : Recipient) : Option String := do
  let name ← varsLookup r.vars "conf_name"
  let acr ← varsLookup r.vars "conf_acronym"
  let year ← varsLookup r.vars "conf_year"
  pure (s!"Dear colleague!\n\nYou participated in the “{name} ({acr} {year}).”\n\n" ++
    "Please take a moment and answer a short conference survey. " ++
    "This will help us to continuously improve the service we provide to you.\n\n" ++
    "https://bit.ly/3mciBZE\n\n" ++
    "Thank you for your time. It is truly appreciated and we hope to see you soon!\n\n\n" ++
    "--\n\nQuality Assessment Team\nof Conference Planning Committee")

/-- The MIME message assembled by `make_email_message`. -/
structure EmailMessage where
  subject : String
  fromHeader : String
  toHeader : String
  listUnsubscribe : String
  body : String
deriving DecidableEq

/-- `make_email_message(sender_email, recipient)`: `none` when a template
variable is missing (`KeyError`). -/
def make_email_message (senderEmail : String) (r : Recipient) : Option EmailMessage := do
  let subject ← make_message_subject r
  let body ← make_message_body r
  pure { subject := subject,
         fromHeader := make_message_from senderEmail,
         toHeader := r.email,
         listUnsubscribe := s!"<mailto:{senderEmail}?subject=Unsubscribe>",
         body := body }

/-- The recipient's `variables` dict has the three template keys used by
message composition. -/
def hasTemplateKeys (r : Recipient) : Bool :=
  (varsLookup r.vars "conf_name").isSome &&
    (varsLookup r.vars "conf_acronym").isSome &&
    (varsLookup r.vars "conf_year").isSome

/-- The log lines written by `make_email_and_send`. -/
inductive LogEvent where
  | sendFailure (senderEmail recipientEmail : String)
  | sendSuccess (senderEmail recipientEmail : String)
  | journalWriteFailure (recipientEmail : String)
deriving DecidableEq

/-- `make_email_and_send(sender, recipient, processed_emails)`.  The
message is composed before and outside the `try`, so a `KeyError` there
escapes (`Except.error`).  The send is attempted inside `try`: on
failure the error is logged and the journal untouched; on success the
success is logged and the add attempted inside a nested `try`, whose
failure is logged as a journal-write failure and swallowed.  `sendOk`
and `addOk` are the outcomes of the two fallible effects. -/
def make_email_and_send (sendOk addOk : Bool) (sender : Sender) (recipient : Recipient)
    (rows : List String) : Except String (List String × List LogEvent) :=
  match make_email_message sender.email recipient with
  | none => Except.error "KeyError"
  | some _ =>
      if sendOk then
        if addOk then
          Except.ok (UniqueJournal.add rows recipient.email,
            [LogEvent.sendSuccess sender.email recipient.email])
        else
          Except.ok (rows,
            [LogEvent.sendSuccess sender.email recipient.email,
             LogEvent.journalWriteFailure recipient.email])
      else
        Except.ok (rows, [LogEvent.sendFailure sender.email recipient.email])

/-- What the loop body does after a pass: `exit()` or sleep until the next
daily iteration and go round again. -/
inductive PassOutcome where
  | exits (rows : List String)
  | sleeps (rows : List String)
deriving DecidableEq

/-- The journal state carried by a pass outcome. -/
def PassOutcome.rows : PassOutcome → List String
  | .exits rs => rs
  | .sleeps rs => rs

/-- `len(recipients) == len(processed_emails.get_rows())` (line 263). -/
def terminationCheck (recipients : List Recipient) (rows : List String) : Bool :=
  recipients.length == rows.length

/-- One iteration of `main`'s `while True` loop: compute the pending
recipients, split them across the senders (`none` when that call spins
forever), schedule and run the pass, then either exit or sleep according
to `terminationCheck`. -/
def loopIter (senders : List Sender) (recipients : List Recipient)
    (ok : Sender → Recipient → Bool) (rows : List String) : Option PassOutcome :=
  let pending := computePending recipients rows
  match split_recipients_by_senders 2 senders pending with
  | none => none
  | some plan =>
      let rows2 := runPass (scheduleTasks plan) ok rows
      if terminationCheck recipients rows2 then some (PassOutcome.exits rows2)
      else some (PassOutcome.sleeps rows2)

/-- Journal states reachable by the run loop: an initial journal that is
duplicate-free and records only emails of loaded recipients, then any
number of loop iterations with arbitrary send outcomes. -/
inductive LoopReachable (senders : List Sender) (recipients : List Recipient) :
    List String → Prop where
  | init (rows : List String) (hnd : rows.Nodup)
      (hsub : ∀ e ∈ rows, e ∈ recipients.map Recipient.email) :
      LoopReachable senders recipients rows
  | step (rows : List String) (ok : Sender → Recipient → Bool) (out : PassOutcome)
      (hr : LoopReachable senders recipients rows)
      (hi : loopIter senders recipients ok rows = some out) :
      LoopReachable senders recipients out.rows

/-- Concrete sample sender (for closed witnesses and counterexamples). -/
def exSenderA : Sender := { email := "a@x.com", password := "pa" }

/-- A second concrete sample sender. -/
def exSenderB : Sender := { email := "b@x.com", password := "pb" }

/-- A concrete recipient with all three template variables, as
`load_recipients` always produces. -/
def exRecipient (e : String) : Recipient :=
  { email := e,
    vars := [("conf_name", "Intl Conf"), ("conf_acronym", "IC"), ("conf_year", "2020")] }

/-- Five concrete recipients (end-to-end scenario 1 of the spec). -/
def exFive : List Recipient :=
  [exRecipient "r0@x.com", exRecipient "r1@x.com", exRecipient "r2@x.com",
   exRecipient "r3@x.com", exRecipient "r4@x.com"]

/-- Three concrete recipients (end-to-end scenario 2 of the spec). -/
def exThree : List Recipient :=
  [exRecipient "r0@x.com", exRecipient "r1@x.com", exRecipient "r2@x.com"]

/-! ## Journal lemmas -/

theorem JournalReachable.nodup {rows : List String} (h : JournalReachable rows) :
    rows.Nodup := by
  induction h with
  | init => exact List.nodup_nil
  | step rows x _ ih =>
      unfold UniqueJournal.add
      split
      · exact ih
      · next hx => simpa [List.nodup_append, hx] using ih

theorem UniqueJournal.add_count_self {rows : List String} {x : String}
    (hnd : rows.Nodup) : (UniqueJournal.add rows x).count x = 1 := by
  unfold UniqueJournal.add
  split
  · next hx => exact List.count_eq_one_of_mem hnd hx
  · next hx =>
      simp [List.count_append, List.count_eq_zero_of_not_mem hx]

theorem UniqueJournal.add_mem_of_mem {rows : List String} {x y : String}
    (hy : y ∈ rows) : y ∈ UniqueJournal.add rows x := by
  unfold UniqueJournal.add
  split
  · exact hy
  · exact List.mem_append_left _ hy

theorem UniqueJournal.mem_add_self (rows : List String) (x : String) :
    x ∈ UniqueJournal.add rows x := by
  unfold UniqueJournal.add
  split
  · assumption
  · exact List.mem_append_right _ (List.mem_singleton.mpr rfl)

theorem UniqueJournal.add_idem (rows : List String) (x : String) :
    UniqueJournal.add (UniqueJournal.add rows x) x = UniqueJournal.add rows x := by
  by_cases h : x ∈ rows <;> simp [UniqueJournal.add, h]

theorem UniqueJournal.add_eq_or_append (rows : List String) (x : String) :
    UniqueJournal.add rows x = rows ∨ UniqueJournal.add rows x = rows ++ [x] := by
  unfold UniqueJournal.add
  split
  · exact Or.inl rfl
  · exact Or.inr rfl

theorem UniqueJournal.add_nodup {rows : List String} (x : String)
    (hnd : rows.Nodup) : (UniqueJournal.add rows x).Nodup := by
  unfold UniqueJournal.add
  split
  · exact hnd
  · next hx => simpa [List.nodup_append, hx] using hnd

/-- Claim C2: after `UniqueJournal.add x` on any journal state produced by
the journal's own operations, the journal contains exactly one occurrence
of `x`, still contains every previously recorded identifier, a second
`add x` is a no-op (no exception is modelled because none can be raised
on this path), and the state either stays unchanged or grows by exactly
the appended row — it never shrinks and never duplicates. -/
theorem C2_journal_add_idempotent (rows : List String) (x : String)
    (h : JournalReachable rows) :
    (UniqueJournal.add rows x).count x = 1 ∧
    (∀ y ∈ rows, y ∈ UniqueJournal.add rows x) ∧
    UniqueJournal.add (UniqueJournal.add rows x) x = UniqueJournal.add rows x ∧
    (UniqueJournal.add rows x = rows ∨ UniqueJournal.add rows x = rows ++ [x]) ∧
    (UniqueJournal.add rows x).Nodup := by
  have hnd := h.nodup
  exact ⟨UniqueJournal.add_count_self hnd,
    fun y hy => UniqueJournal.add_mem_of_mem hy,
    UniqueJournal.add_idem rows x,
    UniqueJournal.add_eq_or_append rows x,
    UniqueJournal.add_nodup x hnd⟩

/-- Witness for C2 at the reachable state `["a"]` and identifier `"b"`. -/
theorem C2_journal_add_idempotent_witness :
    (UniqueJournal.add ["a"] "b").count "b" = 1 ∧
    (∀ y ∈ ["a"], y ∈ UniqueJournal.add ["a"] "b") ∧
    UniqueJournal.add (UniqueJournal.add ["a"] "b") "b" = UniqueJournal.add ["a"] "b" ∧
    (UniqueJournal.add ["a"] "b" = ["a"] ∨ UniqueJournal.add ["a"] "b" = ["a"] ++ ["b"]) ∧
    (UniqueJournal.add ["a"] "b").Nodup := by
  have h : JournalReachable ["a"] := by
    have := JournalReachable.step [] "a" JournalReachable.init
    simpa [UniqueJournal.add] using this
  exact C2_journal_add_idempotent ["a"] "b" h

/-! ## Sender / Recipient identity (claim C8) -/

/-- Counterexample to C8 as stated: two `Sender` values with the same
email but different passwords are not equal under Python `==` (the
dataclass-generated `__eq__` compares all fields). -/
theorem C8_counterexample :
    (Sender.mk "a@x.com" "p1").email = (Sender.mk "a@x.com" "p2").email ∧
    Sender.pyEq (Sender.mk "a@x.com" "p1") (Sender.mk "a@x.com" "p2") = false := by
  decide

/-- Claim C8 (amended): hashing of `Sender` and `Recipient` is determined
by the email field only — equal emails give equal hashes whatever the
other fields are — while Python equality compares all dataclass fields:
two `Sender`s are `==` exactly when both email and password agree, and
two `Recipient`s exactly when both email and the variables dict agree. -/
theorem C8_hash_by_email_eq_by_all_fields (strHash : String → Int)
    (s1 s2 : Sender) (r1 r2 : Recipient)
    (hs : s1.email = s2.email) (hr : r1.email = r2.email) :
    Sender.pyHash strHash s1 = Sender.pyHash strHash s2 ∧
    Recipient.pyHash strHash r1 = Recipient.pyHash strHash r2 ∧
    (Sender.pyEq s1 s2 = true ↔ s1.password = s2.password) ∧
    (Recipient.pyEq r1 r2 = true ↔ varsDictEq r1.vars r2.vars = true) := by
  refine ⟨by simp [Sender.pyHash, hs], by simp [Recipient.pyHash, hr], ?_, ?_⟩
  · simp [Sender.pyEq, hs]
  · simp [Recipient.pyEq, hr]

/-- Witness for C8's amended theorem at concrete senders and recipients
with equal emails and differing credentials / variables. -/
theorem C8_hash_by_email_witness :
    Sender.pyHash (fun s => (s.length : Int)) (Sender.mk "a@x.com" "p1") =
      Sender.pyHash (fun s => (s.length : Int)) (Sender.mk "a@x.com" "p2") ∧
    Recipient.pyHash (fun s => (s.length : Int)) (Recipient.mk "r@x.com" []) =
      Recipient.pyHash (fun s => (s.length : Int)) (Recipient.mk "r@x.com" [("k", "v")]) ∧
    (Sender.pyEq (Sender.mk "a@x.com" "p1") (Sender.mk "a@x.com" "p2") = true ↔
      (Sender.mk "a@x.com" "p1").password = (Sender.mk "a@x.com" "p2").password) ∧
    (Recipient.pyEq (Recipient.mk "r@x.com" []) (Recipient.mk "r@x.com" [("k", "v")]) = true ↔
      varsDictEq (Recipient.mk "r@x.com" []).vars
        (Recipient.mk "r@x.com" [("k", "v")]).vars = true) :=
  C8_hash_by_email_eq_by_all_fields (fun s => (s.length : Int))
    (Sender.mk "a@x.com" "p1") (Sender.mk "a@x.com" "p2")
    (Recipient.mk "r@x.com" []) (Recipient.mk "r@x.com" [("k", "v")]) rfl rfl

/-! ## Empty sender list (claim C7) -/

theorem whileLoop_nil_senders (fuel : Nat) (d : Plan) (q : List Recipient)
    (pos : Nat) (hq : q ≠ []) : whileLoop [] fuel d q pos = none := by
  induction fuel with
  | zero => rfl
  | succ n ih =>
      cases q with
      | nil => exact absurd rfl hq
      | cons r rest => exact ih

/-- Counterexample to C7 as stated: with an empty sender list and one
pending recipient, `split_recipients_by_senders` does not fail with an
error — no exception is raised on this path (the only guarded exception,
`IndexError` from `popleft`, never fires because the `for` over
`itertools.cycle([])` yields nothing) — instead the `while` loop never
terminates: no amount of fuel produces a result. -/
theorem C7_counterexample : ¬ splitTerminates [] [exRecipient "r0@x.com"] := by
  rintro ⟨fuel, plan, h⟩
  rw [split_recipients_by_senders,
    whileLoop_nil_senders fuel _ _ 0 (by simp)] at h
  exact Option.noConfusion h

/-- Claim C7 (amended): for every non-empty recipient list `R`, calling
`split_recipients_by_senders` with an empty sender list and `R` neither
raises nor returns normally: the loop makes no progress and spins
forever (modelled as `none` for every fuel), so no recipient is ever
silently dropped — but the stated configuration error is never raised. -/
theorem C7_empty_senders_diverges (R : List Recipient) (hR : R ≠ []) (fuel : Nat) :
    split_recipients_by_senders fuel [] R = none := by
  rw [split_recipients_by_senders]
  exact whileLoop_nil_senders fuel _ R 0 hR

/-- Witness for C7's amended theorem at one concrete recipient, fuel 5. -/
theorem C7_empty_senders_diverges_witness :
    split_recipients_by_senders 5 [] [exRecipient "r0@x.com"] = none :=
  C7_empty_senders_diverges [exRecipient "r0@x.com"] (by simp) 5

/-! ## Pending-set computation (claim C3) -/

/-- Claim C3: the pending set computed at the start of a pass is exactly
the loaded recipients whose email is not among the journal rows, in load
order (a sublist of the loaded list); and in the spec's scenario 2 — one
sender, three recipients, the send to `r2@x.com` failing — the pass
journals exactly the two succeeded emails and the next pending set is
exactly the one failed recipient. -/
theorem C3_pending_characterization (recipients : List Recipient) (rows : List String) :
    List.Sublist (computePending recipients rows) recipients ∧
    (∀ r, r ∈ computePending recipients rows ↔ r ∈ recipients ∧ r.email ∉ rows) ∧
    loopIter [exSenderA] exThree (fun _ r => r.email != "r2@x.com") [] =
      some (PassOutcome.sleeps ["r0@x.com", "r1@x.com"]) ∧
    computePending exThree ["r0@x.com", "r1@x.com"] = [exRecipient "r2@x.com"] := by
  refine ⟨List.filter_sublist _, ?_, by decide, by decide⟩
  intro r
  simp [computePending, List.mem_filter]

/-! ## Send-task error handling (claims C6 and C10) -/

theorem make_email_message_isSome (se : String) (r : Recipient) :
    (make_email_message se r).isSome = hasTemplateKeys r := by
  unfold make_email_message make_message_subject make_message_body hasTemplateKeys
  cases h1 : varsLookup r.vars "conf_name" <;>
    cases h2 : varsLookup r.vars "conf_acronym" <;>
      cases h3 : varsLookup r.vars "conf_year" <;>
        simp [h1, h2, h3]

/-- Claim C6: when the message composes (all template keys present), the
task never propagates an exception: a failed send logs the failure and
leaves the journal untouched; a successful send logs success and adds
the recipient's email to the journal; a journal write that fails after a
successful send is caught and logged as the distinct
`journalWriteFailure` event, leaving the journal state unchanged. -/
theorem C6_send_task_error_handling (sender : Sender) (recipient : Recipient)
    (rows : List String) (sendOk addOk : Bool)
    (h : hasTemplateKeys recipient = true) :
    (sendOk = false →
      make_email_and_send sendOk addOk sender recipient rows =
        Except.ok (rows, [LogEvent.sendFailure sender.email recipient.email])) ∧
    (sendOk = true → addOk = true →
      make_email_and_send sendOk addOk sender recipient rows =
        Except.ok (UniqueJournal.add rows recipient.email,
          [LogEvent.sendSuccess sender.email recipient.email])) ∧
    (sendOk = true → addOk = false →
      make_email_and_send sendOk addOk sender recipient rows =
        Except.ok (rows, [LogEvent.sendSuccess sender.email recipient.email,
          LogEvent.journalWriteFailure recipient.email])) := by
  cases hm : make_email_message sender.email recipient with
  | none =>
      have := make_email_message_isSome sender.email recipient
      rw [hm, h] at this
      simp at this
  | some msg =>
      refine ⟨fun hs => ?_, fun hs ha => ?_, fun hs ha => ?_⟩ <;>
        subst hs <;> (try subst ha) <;> simp [make_email_and_send, hm]

/-- Witness for C6 at a concrete sender, recipient and journal, in the
failed-send case. -/
theorem C6_send_task_error_handling_witness :
    make_email_and_send false true exSenderA (exRecipient "r0@x.com") ["old"] =
      Except.ok (["old"], [LogEvent.sendFailure "a@x.com" "r0@x.com"]) :=
  (C6_send_task_error_handling exSenderA (exRecipient "r0@x.com") ["old"]
    false true (by decide)).1 rfl

/-- Claim C10: with all three template keys present the task returns
normally whatever the send and journal-write outcomes are; with a key
missing, composition happens before and outside the exception handler,
so the `KeyError` escapes the task. -/
theorem C10_composition_outside_handler (sender : Sender) (r : Recipient)
    (rows : List String) (sendOk addOk : Bool) :
    (hasTemplateKeys r = true →
      ∃ out, make_email_and_send sendOk addOk sender r rows = Except.ok out) ∧
    (hasTemplateKeys r = false →
      make_email_and_send sendOk addOk sender r rows = Except.error "KeyError") := by
  constructor
  · intro hk
    cases hm : make_email_message sender.email r with
    | none =>
        have := make_email_message_isSome sender.email r
        rw [hm, hk] at this
        simp at this
    | some msg =>
        unfold make_email_and_send
        rw [hm]
        cases sendOk <;> cases addOk <;> exact ⟨_, rfl⟩
  · intro hk
    cases hm : make_email_message sender.email r with
    | some msg =>
        have := make_email_message_isSome sender.email r
        rw [hm, hk] at this
        simp at this
    | none =>
        unfold make_email_and_send
        rw [hm]

/-- Witness for C10: a recipient with the three keys returns normally; a
recipient with an empty variables dict makes the task raise. -/
theorem C10_composition_outside_handler_witness :
    (∃ out, make_email_and_send true true exSenderA (exRecipient "r0@x.com") [] =
      Except.ok out) ∧
    make_email_and_send true true exSenderA (Recipient.mk "bad@x.com" []) [] =
      Except.error "KeyError" :=
  ⟨(C10_composition_outside_handler exSenderA (exRecipient "r0@x.com") [] true true).1
      (by decide),
   (C10_composition_outside_handler exSenderA (Recipient.mk "bad@x.com" []) [] true true).2
      (by decide)⟩

/-! ## Run-loop termination check (claim C4) -/

/-- Claim C4: a loop iteration ends the process exactly when the loaded
recipient count equals the journal's recorded count after the pass:
`exits` implies the counts are equal and `sleeps` (sleep, then another
pass) implies they differ; and in the spec's scenario 1 — two senders,
five recipients, every send succeeding — sender A is assigned recipients
0, 2, 4 and sender B recipients 1, 3, the journal ends with exactly the
five emails, and the iteration exits instead of sleeping. -/
theorem C4_exits_iff_counts_equal (senders : List Sender) (recipients : List Recipient)
    (ok : Sender → Recipient → Bool) (rows : List String) (out : PassOutcome)
    (h : loopIter senders recipients ok rows = some out) :
    (∀ rows', out = PassOutcome.exits rows' → recipients.length = rows'.length) ∧
    (∀ rows', out = PassOutcome.sleeps rows' → recipients.length ≠ rows'.length) ∧
    loopIter [exSenderA, exSenderB] exFive (fun _ _ => true) [] =
      some (PassOutcome.exits
        ["r0@x.com", "r1@x.com", "r2@x.com", "r3@x.com", "r4@x.com"]) ∧
    split_recipients_by_senders 2 [exSenderA, exSenderB] exFive =
      some [(exSenderA, [exRecipient "r0@x.com", exRecipient "r2@x.com",
              exRecipient "r4@x.com"]),
            (exSenderB, [exRecipient "r1@x.com", exRecipient "r3@x.com"])] := by
  refine ⟨?_, ?_, by decide, by decide⟩
  · intro rows' hout
    subst hout
    unfold loopIter at h
    cases hs : split_recipients_by_senders 2 senders (computePending recipients rows) with
    | none => simp [hs] at h
    | some plan =>
        simp only [hs] at h
        by_cases hc : terminationCheck recipients
            (runPass (scheduleTasks plan) ok rows) = true
        · rw [if_pos hc] at h
          simp only [Option.some.injEq, PassOutcome.exits.injEq] at h
          subst h
          simpa [terminationCheck] using hc
        · rw [if_neg hc] at h
          simp at h
  · intro rows' hout
    subst hout
    unfold loopIter at h
    cases hs : split_recipients_by_senders 2 senders (computePending recipients rows) with
    | none => simp [hs] at h
    | some plan =>
        simp only [hs] at h
        by_cases hc : terminationCheck recipients
            (runPass (scheduleTasks plan) ok rows) = true
        · rw [if_pos hc] at h
          simp at h
        · rw [if_neg hc] at h
          simp only [Option.some.injEq, PassOutcome.sleeps.injEq] at h
          subst h
          simpa [terminationCheck] using hc

/-! ## Pass scheduling (claim C5) -/

theorem scheduleTasks_foldl (plan : Plan) (acc : List Task) :
    plan.foldl (fun acc e => acc ++ tasksFor e.1 e.2) acc =
      acc ++ plan.flatMap (fun e => tasksFor e.1 e.2) := by
  induction plan generalizing acc with
  | nil => simp
  | cons e rest ih => simp [List.foldl_cons, ih, List.append_assoc]

theorem scheduleTasks_eq_flatMap (plan : Plan) :
    scheduleTasks plan = plan.flatMap (fun e => tasksFor e.1 e.2) := by
  simpa [scheduleTasks] using scheduleTasks_foldl plan []

theorem tasksFor_sender {s : Sender} {part : List Recipient} {t : Task}
    (h : t ∈ tasksFor s part) : t.sender = s := by
  simp only [tasksFor, List.mem_map] at h
  obtain ⟨p, _, rfl⟩ := h
  rfl

theorem tasksFor_recipient_mem {s : Sender} {part : List Recipient} {t : Task}
    (h : t ∈ tasksFor s part) : t.recipient ∈ part.take 50 := by
  simp only [tasksFor, List.mem_map] at h
  obtain ⟨p, hp, rfl⟩ := h
  exact List.snd_mem_of_mem_enum hp

theorem tasksFor_length (s : Sender) (part : List Recipient) :
    (tasksFor s part).length = min part.length 50 := by
  simp [tasksFor, Nat.min_comm]

theorem tasksFor_get? (s : Sender) (part : List Recipient) (i : Nat) (r : Recipient)
    (hr : part.get? i = some r) (hi : i < 50) :
    (tasksFor s part).get? i = some { offset := i * 1560, sender := s, recipient := r } := by
  have ht : (part.take 50)[i]? = some r := by
    rw [List.getElem?_take_of_lt hi, ← List.get?_eq_getElem?]
    exact hr
  simp [tasksFor, List.get?_eq_getElem?, List.getElem?_enum, ht]

theorem filter_scheduleTasks {plan : Plan} {s : Sender} {A : List Recipient}
    (hnd : (plan.map Prod.fst).Nodup) (hmem : (s, A) ∈ plan) :
    (scheduleTasks plan).filter (fun t => t.sender == s) = tasksFor s A := by
  rw [scheduleTasks_eq_flatMap]
  induction plan with
  | nil => cases hmem
  | cons e rest ih =>
      simp only [List.map_cons, List.nodup_cons] at hnd
      rw [List.flatMap_cons, List.filter_append]
      rcases List.mem_cons.mp hmem with heq | hrest
      · subst heq
        have h1 : (tasksFor s A).filter (fun t => t.sender == s) = tasksFor s A := by
          rw [List.filter_eq_self]
          intro t ht
          simp [tasksFor_sender ht]
        have h2 : (rest.flatMap (fun e => tasksFor e.1 e.2)).filter
            (fun t => t.sender == s) = [] := by
          rw [List.filter_eq_nil_iff]
          intro t ht
          obtain ⟨e', he', ht'⟩ := List.mem_flatMap.mp ht
          have : t.sender = e'.1 := tasksFor_sender ht'
          have hne : e'.1 ≠ s := by
            intro hcon
            have hmm : e'.1 ∈ List.map Prod.fst rest := List.mem_map_of_mem Prod.fst he'
            rw [hcon] at hmm
            exact hnd.1 hmm
          simp [this, hne]
        rw [h1, h2, List.append_nil]
      · have hne : e.1 ≠ s := by
          intro hcon
          have hmm : s ∈ List.map Prod.fst rest := by
            simpa using List.mem_map_of_mem Prod.fst hrest
          rw [← hcon] at hmm
          exact hnd.1 hmm
        have h1 : (tasksFor e.1 e.2).filter (fun t => t.sender == s) = [] := by
          rw [List.filter_eq_nil_iff]
          intro t ht
          simp [tasksFor_sender ht, hne]
        rw [h1, List.nil_append]
        exact ih hnd.2 hrest

theorem insertTask_perm (a : Task) (l : List Task) :
    List.Perm (insertTask a l) (a :: l) := by
  induction l with
  | nil => exact List.Perm.refl _
  | cons b l ih =>
      unfold insertTask
      split
      · exact List.Perm.refl _
      · exact (ih.cons b).trans (List.Perm.swap a b l)

theorem sortTasks_foldl_perm (l acc : List Task) :
    List.Perm (l.foldl (fun acc a => insertTask a acc) acc) (acc ++ l) := by
  induction l generalizing acc with
  | nil => simp
  | cons a l ih =>
      have h2 : List.Perm ((insertTask a acc) ++ l) (acc ++ a :: l) :=
        ((insertTask_perm a acc).append_right l).trans List.perm_middle.symm
      simpa using (ih (insertTask a acc)).trans h2

theorem sortTasks_perm (l : List Task) : List.Perm (sortTasks l) l := by
  simpa [sortTasks] using sortTasks_foldl_perm l []

theorem mem_insertTask {x a : Task} {l : List Task} :
    x ∈ insertTask a l ↔ x = a ∨ x ∈ l := by
  rw [(insertTask_perm a l).mem_iff, List.mem_cons]

theorem insertTask_sorted {l : List Task} (a : Task)
    (h : List.Sorted (fun t u => t.offset ≤ u.offset) l) :
    List.Sorted (fun t u => t.offset ≤ u.offset) (insertTask a l) := by
  induction l with
  | nil => simp [insertTask]
  | cons b l ih =>
      rw [List.sorted_cons] at h
      unfold insertTask
      split
      · next hab =>
          rw [List.sorted_cons]
          refine ⟨fun c hc => ?_, List.sorted_cons.mpr h⟩
          rcases List.mem_cons.mp hc with rfl | hc
          · exact Nat.le_of_lt hab
          · exact Nat.le_trans (Nat.le_of_lt hab) (h.1 c hc)
      · next hab =>
          rw [List.sorted_cons]
          refine ⟨fun c hc => ?_, ih h.2⟩
          rcases mem_insertTask.mp hc with rfl | hc
          · exact Nat.le_of_not_lt hab
          · exact h.1 c hc

theorem sortTasks_foldl_sorted (l : List Task) (acc : List Task)
    (hacc : List.Sorted (fun t u => t.offset ≤ u.offset) acc) :
    List.Sorted (fun t u => t.offset ≤ u.offset)
      (l.foldl (fun acc a => insertTask a acc) acc) := by
  induction l generalizing acc with
  | nil => simpa using hacc
  | cons a l ih => exact ih (insertTask a acc) (insertTask_sorted a hacc)

theorem sortTasks_sorted (l : List Task) :
    List.Sorted (fun t u => t.offset ≤ u.offset) (sortTasks l) :=
  sortTasks_foldl_sorted l [] (by simp)

/-- Claim C5: within one pass, each sender with assigned sequence `A` gets
exactly `min (len A) 50` scheduled tasks, the `i`-th at relative offset
`i * 1560` for the `i`-th recipient of `A` (so the `k`-th task per
sender starts no earlier than `k * 1560` seconds after pass start);
`scheduler.run` executes all scheduled tasks in non-decreasing offset
order; and no recipient beyond position 50 of `A` is attempted. -/
theorem C5_staggered_schedule (plan : Plan) (s : Sender) (A : List Recipient)
    (hnd : (plan.map Prod.fst).Nodup) (hmem : (s, A) ∈ plan) :
    ((scheduleTasks plan).filter (fun t => t.sender == s)).length = min A.length 50 ∧
    (∀ i r, A.get? i = some r → i < 50 →
      ((scheduleTasks plan).filter (fun t => t.sender == s)).get? i =
        some { offset := i * 1560, sender := s, recipient := r }) ∧
    (∀ t ∈ (scheduleTasks plan).filter (fun t => t.sender == s),
      t.recipient ∈ A.take 50) ∧
    List.Sorted (fun t u => t.offset ≤ u.offset) (sortTasks (scheduleTasks plan)) ∧
    List.Perm (sortTasks (scheduleTasks plan)) (scheduleTasks plan) := by
  rw [filter_scheduleTasks hnd hmem]
  exact ⟨tasksFor_length s A,
    fun i r hr hi => tasksFor_get? s A i r hr hi,
    fun t ht => tasksFor_recipient_mem ht,
    sortTasks_sorted _,
    sortTasks_perm _⟩

/-- Witness for C5 at the concrete scenario-1 plan, sender A's entry. -/
theorem C5_staggered_schedule_witness :
    ((scheduleTasks [(exSenderA, [exRecipient "r0@x.com", exRecipient "r2@x.com",
        exRecipient "r4@x.com"]), (exSenderB, [exRecipient "r1@x.com",
        exRecipient "r3@x.com"])]).filter (fun t => t.sender == exSenderA)).length =
      min 3 50 :=
  (C5_staggered_schedule _ exSenderA
      [exRecipient "r0@x.com", exRecipient "r2@x.com", exRecipient "r4@x.com"]
      (by decide) (by decide)).1

/-- Witness for C4 at the scenario-1 input, whose iteration exits. -/
theorem C4_exits_iff_counts_equal_witness :
    exFive.length =
      (["r0@x.com", "r1@x.com", "r2@x.com", "r3@x.com", "r4@x.com"] : List String).length :=
  (C4_exits_iff_counts_equal [exSenderA, exSenderB] exFive (fun _ _ => true) []
      (PassOutcome.exits ["r0@x.com", "r1@x.com", "r2@x.com", "r3@x.com", "r4@x.com"])
      (by decide)).1
    ["r0@x.com", "r1@x.com", "r2@x.com", "r3@x.com", "r4@x.com"] rfl

/-! ## Duplicate recipient emails (claim C9) -/

theorem UniqueJournal.mem_add_iff {rows : List String} {x e : String} :
    e ∈ UniqueJournal.add rows x ↔ e ∈ rows ∨ e = x := by
  unfold UniqueJournal.add
  split
  · next hx => exact ⟨Or.inl, fun h => h.elim id (fun he => he ▸ hx)⟩
  · simp

theorem dictInsertEmpty_values_nil {d : Plan} {s : Sender}
    (hd : ∀ p ∈ d, p.2 = []) : ∀ p ∈ dictInsertEmpty d s, p.2 = [] := by
  unfold dictInsertEmpty
  split
  · exact hd
  · intro p hp
    rcases List.mem_append.mp hp with hp | hp
    · exact hd p hp
    · rw [List.mem_singleton.mp hp]

theorem dictInit_values_nil (senders : List Sender) :
    ∀ p ∈ dictInit senders, p.2 = [] := by
  unfold dictInit
  suffices h : ∀ (l : List Sender) (acc : Plan), (∀ p ∈ acc, p.2 = []) →
      ∀ p ∈ l.foldl dictInsertEmpty acc, p.2 = [] by
    exact h senders [] (by simp)
  intro l
  induction l with
  | nil => intro acc hacc; simpa using hacc
  | cons s rest ih =>
      intro acc hacc
      exact ih (dictInsertEmpty acc s) (dictInsertEmpty_values_nil hacc)

theorem dictAppend_values_sub {d : Plan} {S : List Recipient} {s : Sender}
    {r0 : Recipient} (hd : ∀ p ∈ d, ∀ r ∈ p.2, r ∈ S) (hr0 : r0 ∈ S) :
    ∀ p ∈ dictAppend d s r0, ∀ r ∈ p.2, r ∈ S := by
  induction d with
  | nil => simp [dictAppend]
  | cons e rest ih =>
      obtain ⟨k, v⟩ := e
      simp only [dictAppend]
      split
      · intro p hp r hr
        rcases List.mem_cons.mp hp with heq | hp
        · subst heq
          rcases List.mem_append.mp hr with hr | hr
          · exact hd (k, v) (List.mem_cons_self _ _) r hr
          · rw [List.mem_singleton.mp hr]; exact hr0
        · exact hd p (List.mem_cons_of_mem _ hp) r hr
      · intro p hp r hr
        rcases List.mem_cons.mp hp with heq | hp
        · subst heq
          exact hd (k, v) (List.mem_cons_self _ _) r hr
        · exact ih (fun q hq => hd q (List.mem_cons_of_mem _ hq)) p hp r hr

theorem innerFor_values_sub (s0 : Sender) (ss : List Sender) {S : List Recipient} :
    ∀ (q : List Recipient) (d : Plan) (pos : Nat),
    (∀ p ∈ d, ∀ r ∈ p.2, r ∈ S) → (∀ r ∈ q, r ∈ S) →
    ∀ p ∈ (innerFor s0 ss q d pos).1, ∀ r ∈ p.2, r ∈ S := by
  intro q
  induction q with
  | nil => intro d pos hd _; simpa [innerFor] using hd
  | cons r rest ih =>
      intro d pos hd hq
      exact ih _ _ (dictAppend_values_sub hd (hq r (List.mem_cons_self _ _)))
        (fun x hx => hq x (List.mem_cons_of_mem _ hx))

theorem whileLoop_values_sub {S : List Recipient} :
    ∀ (fuel : Nat) (senders : List Sender) (d : Plan) (q : List Recipient)
      (pos : Nat) (d' : Plan),
    (∀ p ∈ d, ∀ r ∈ p.2, r ∈ S) → (∀ r ∈ q, r ∈ S) →
    whileLoop senders fuel d q pos = some d' →
    ∀ p ∈ d', ∀ r ∈ p.2, r ∈ S := by
  intro fuel
  induction fuel with
  | zero =>
      intro senders d q pos d' _ _ h
      exact Option.noConfusion h
  | succ n ih =>
      intro senders d q pos d' hd hq h
      cases q with
      | nil =>
          simp only [whileLoop] at h
          cases h
          exact hd
      | cons r rest =>
          cases senders with
          | nil =>
              simp only [whileLoop] at h
              exact ih [] d (r :: rest) pos d' hd hq h
          | cons s0 ss =>
              simp only [whileLoop] at h
              exact ih (s0 :: ss) _ [] _ d'
                (innerFor_values_sub s0 ss (r :: rest) d pos hd hq)
                (by simp) h

theorem split_values_sub {fuel : Nat} {senders : List Sender}
    {q : List Recipient} {plan : Plan}
    (h : split_recipients_by_senders fuel senders q = some plan) :
    ∀ p ∈ plan, ∀ r ∈ p.2, r ∈ q := by
  apply whileLoop_values_sub fuel senders (dictInit senders) q 0 plan ?_ ?_ h
  · intro p hp r hr
    rw [dictInit_values_nil senders p hp] at hr
    cases hr
  · exact fun r hr => hr

theorem sendFold_invariant {E : List String} (ok : Sender → Recipient → Bool) :
    ∀ (ts : List Task) (rows : List String), rows.Nodup → (∀ e ∈ rows, e ∈ E) →
    (∀ t ∈ ts, t.recipient.email ∈ E) →
    (ts.foldl (fun acc t => if ok t.sender t.recipient then
        UniqueJournal.add acc t.recipient.email else acc) rows).Nodup ∧
    ∀ e ∈ ts.foldl (fun acc t => if ok t.sender t.recipient then
        UniqueJournal.add acc t.recipient.email else acc) rows, e ∈ E := by
  intro ts
  induction ts with
  | nil => intro rows hnd hsub _; exact ⟨hnd, hsub⟩
  | cons t ts ih =>
      intro rows hnd hsub hts
      simp only [List.foldl_cons]
      by_cases hok : ok t.sender t.recipient = true
      · rw [if_pos hok]
        refine ih _ (UniqueJournal.add_nodup _ hnd) (fun e he => ?_)
          (fun u hu => hts u (List.mem_cons_of_mem _ hu))
        rcases UniqueJournal.mem_add_iff.mp he with he | he
        · exact hsub e he
        · rw [he]; exact hts t (List.mem_cons_self _ _)
      · rw [if_neg hok]
        exact ih _ hnd hsub (fun u hu => hts u (List.mem_cons_of_mem _ hu))

theorem runPass_invariant {E : List String} (tasks : List Task)
    (ok : Sender → Recipient → Bool) (rows : List String)
    (hnd : rows.Nodup) (hsub : ∀ e ∈ rows, e ∈ E)
    (htasks : ∀ t ∈ tasks, t.recipient.email ∈ E) :
    (runPass tasks ok rows).Nodup ∧ ∀ e ∈ runPass tasks ok rows, e ∈ E := by
  unfold runPass
  exact sendFold_invariant ok (sortTasks tasks) rows hnd hsub
    (fun t ht => htasks t ((sortTasks_perm tasks).subset ht))

theorem LoopReachable.invariant {senders : List Sender} {recipients : List Recipient}
    {rows : List String} (h : LoopReachable senders recipients rows) :
    rows.Nodup ∧ ∀ e ∈ rows, e ∈ recipients.map Recipient.email := by
  induction h with
  | init rows hnd hsub => exact ⟨hnd, hsub⟩
  | step rows ok out hr hi ih =>
      unfold loopIter at hi
      cases hs : split_recipients_by_senders 2 senders (computePending recipients rows) with
      | none => simp [hs] at hi
      | some plan =>
          simp only [hs] at hi
          have hrows : out.rows = runPass (scheduleTasks plan) ok rows := by
            split at hi <;> (cases hi; rfl)
          rw [hrows]
          refine runPass_invariant (scheduleTasks plan) ok rows ih.1 ih.2 ?_
          intro t ht
          rw [scheduleTasks_eq_flatMap] at ht
          obtain ⟨e', he', ht'⟩ := List.mem_flatMap.mp ht
          have hrec : t.recipient ∈ e'.2 :=
            List.take_subset 50 e'.2 (tasksFor_recipient_mem ht')
          have hpend : t.recipient ∈ computePending recipients rows :=
            split_values_sub hs e' he' t.recipient hrec
          have hsl : List.Sublist (computePending recipients rows) recipients :=
            List.filter_sublist recipients
          have hload : t.recipient ∈ recipients := hsl.subset hpend
          exact List.mem_map_of_mem Recipient.email hload

theorem nodup_length_le_dedup {l m : List String} (hnd : l.Nodup)
    (hsub : ∀ x ∈ l, x ∈ m) : l.length ≤ m.dedup.length := by
  have h1 : l.toFinset.card = l.length := List.toFinset_card_of_nodup hnd
  have h2 : l.toFinset ⊆ m.toFinset := by
    intro x hx
    simp only [List.mem_toFinset] at hx ⊢
    exact hsub x hx
  have h3 : m.toFinset.card = m.dedup.length := List.card_toFinset m
  have h4 := Finset.card_le_card h2
  omega

theorem dedup_length_lt {l : List String} (h : ¬ l.Nodup) :
    l.dedup.length < l.length := by
  have h1 : List.Sublist l.dedup l := List.dedup_sublist l
  have h2 : l.dedup.length ≤ l.length := h1.length_le
  rcases Nat.lt_or_ge l.dedup.length l.length with h3 | h3
  · exact h3
  · exfalso
    have heq : l.dedup = l := h1.eq_of_length (by omega)
    exact h (heq ▸ l.nodup_dedup)

/-- Claim C9: when the loaded recipient list contains two recipients with
the same email and the journal starts duplicate-free recording only
loaded emails, every journal state the run loop can reach keeps strictly
fewer rows than there are loaded recipients, so the termination check
`len(recipients) == len(rows)` is false at every reachable state and the
loop never exits. -/
theorem C9_duplicate_emails_never_terminate (senders : List Sender)
    (recipients : List Recipient) (rows : List String)
    (hdup : ¬ (recipients.map Recipient.email).Nodup)
    (hr : LoopReachable senders recipients rows) :
    rows.length < recipients.length ∧ terminationCheck recipients rows = false := by
  obtain ⟨hnd, hsub⟩ := hr.invariant
  have h1 : rows.length ≤ (recipients.map Recipient.email).dedup.length :=
    nodup_length_le_dedup hnd hsub
  have h2 : (recipients.map Recipient.email).dedup.length <
      (recipients.map Recipient.email).length := dedup_length_lt hdup
  have h3 : (recipients.map Recipient.email).length = recipients.length :=
    List.length_map recipients Recipient.email
  constructor
  · omega
  · simp only [terminationCheck, beq_eq_false_iff_ne, ne_eq]
    omega

/-- Witness for C9 at two loaded recipients sharing one email and the
empty initial journal. -/
theorem C9_duplicate_emails_never_terminate_witness :
    ([] : List String).length <
      [exRecipient "dup@x.com", exRecipient "dup@x.com"].length ∧
    terminationCheck [exRecipient "dup@x.com", exRecipient "dup@x.com"] [] = false :=
  C9_duplicate_emails_never_terminate [exSenderA]
    [exRecipient "dup@x.com", exRecipient "dup@x.com"] []
    (by decide) (LoopReachable.init [] (by simp) (by simp))

/-! ## Round-robin characterization (claim C1) -/

theorem Sender.pyEq_iff {a b : Sender} : Sender.pyEq a b = true ↔ a = b := by
  cases a
  cases b
  simp [Sender.pyEq]

theorem Sender.pyEq_self (s : Sender) : Sender.pyEq s s = true :=
  Sender.pyEq_iff.mpr rfl

theorem foldl_dictInsertEmpty (senders : List Sender) :
    ∀ acc : Plan, senders.Nodup → (∀ s ∈ senders, ∀ p ∈ acc, p.1 ≠ s) →
    senders.foldl dictInsertEmpty acc = acc ++ senders.map (fun s => (s, [])) := by
  induction senders with
  | nil => intro acc _ _; simp
  | cons s rest ih =>
      intro acc hnd hacc
      rw [List.foldl_cons]
      have hany : acc.any (fun p => Sender.pyEq p.1 s) = false := by
        rw [List.any_eq_false]
        intro p hp
        intro hcon
        exact hacc s (List.mem_cons_self _ _) p hp (Sender.pyEq_iff.mp hcon)
      have hins : dictInsertEmpty acc s = acc ++ [(s, [])] := by
        unfold dictInsertEmpty
        rw [hany]
        simp
      rw [hins, ih (acc ++ [(s, [])]) (List.nodup_cons.mp hnd).2 ?side]
      · simp
      case side =>
        intro s' hs' p hp
        rcases List.mem_append.mp hp with hp | hp
        · exact hacc s' (List.mem_cons_of_mem _ hs') p hp
        · have hps : p = (s, []) := List.mem_singleton.mp hp
          subst hps
          intro hcon
          have hss : s = s' := hcon
          exact (List.nodup_cons.mp hnd).1 (by rw [hss]; exact hs')

theorem dictInit_eq_map {senders : List Sender} (hnd : senders.Nodup) :
    dictInit senders = senders.map (fun s => (s, [])) := by
  unfold dictInit
  simpa using foldl_dictInsertEmpty senders [] hnd (by simp)

theorem map_pair_eq_zip_replicate (senders : List Sender) :
    senders.map (fun s => (s, ([] : List Recipient))) =
      senders.zip (List.replicate senders.length []) := by
  induction senders with
  | nil => rfl
  | cons s rest ih => simp [List.replicate_succ, ih]

theorem getD_set_self {α : Type} {l : List α} {k : Nat} (x d : α)
    (hk : k < l.length) : (l.set k x).getD k d = x := by
  simp [List.getD_eq_getElem?_getD, List.getElem?_set_eq_of_lt x hk]

theorem getD_set_ne {α : Type} {l : List α} {k j : Nat} (x d : α)
    (h : j ≠ k) : (l.set k x).getD j d = l.getD j d := by
  rw [List.getD_eq_getElem?_getD, List.getElem?_set_ne (by omega),
    ← List.getD_eq_getElem?_getD]

theorem getD_replicate_nil {n j : Nat} :
    (List.replicate n ([] : List Recipient)).getD j [] = [] := by
  induction n generalizing j with
  | zero => simp
  | succ m ih => cases j <;> simp [List.replicate_succ, ih]

theorem dictAppend_zip_set :
    ∀ (senders : List Sender) (vals : List (List Recipient)) (k : Nat)
      (hk : k < senders.length) (r : Recipient),
    senders.Nodup → vals.length = senders.length →
    dictAppend (senders.zip vals) (senders.get ⟨k, hk⟩) r =
      senders.zip (vals.set k (vals.getD k [] ++ [r])) := by
  intro senders
  induction senders with
  | nil => intro vals k hk; exact absurd hk (by simp)
  | cons s ss ih =>
      intro vals k hk r hnd hlen
      cases vals with
      | nil => simp at hlen
      | cons v vs =>
          simp only [List.length_cons] at hlen
          cases k with
          | zero =>
              show dictAppend ((s, v) :: ss.zip vs) s r = _
              simp [dictAppend, Sender.pyEq_self]
          | succ k' =>
              have hk' : k' < ss.length := by simpa using hk
              have hne : Sender.pyEq s (ss.get ⟨k', hk'⟩) = false := by
                rw [Bool.eq_false_iff]
                intro hcon
                have heq : s = ss.get ⟨k', hk'⟩ := Sender.pyEq_iff.mp hcon
                have hmem : ss.get ⟨k', hk'⟩ ∈ ss := List.get_mem ss k' hk'
                rw [← heq] at hmem
                exact (List.nodup_cons.mp hnd).1 hmem
              show dictAppend ((s, v) :: ss.zip vs) (ss.get ⟨k', hk'⟩) r = _
              simp only [dictAppend, hne, Bool.false_eq_true, if_false]
              rw [ih vs k' hk' r (List.nodup_cons.mp hnd).2 (by omega)]
              simp

theorem valsRR_length (n : Nat) :
    ∀ (q : List Recipient) (vals : List (List Recipient)) (pos : Nat),
    (valsRR n vals pos q).length = vals.length := by
  intro q
  induction q with
  | nil => intro vals pos; rfl
  | cons r rest ih =>
      intro vals pos
      simp only [valsRR]
      rw [ih, List.length_set]

theorem innerFor_zip (s0 : Sender) (ss : List Sender) (hnd : (s0 :: ss).Nodup) :
    ∀ (q : List Recipient) (vals : List (List Recipient)) (pos : Nat),
    vals.length = (s0 :: ss).length →
    innerFor s0 ss q ((s0 :: ss).zip vals) pos =
      ((s0 :: ss).zip (valsRR (s0 :: ss).length vals pos q), pos + q.length) := by
  intro q
  induction q with
  | nil => intro vals pos hlen; simp [innerFor, valsRR]
  | cons r rest ih =>
      intro vals pos hlen
      simp only [innerFor]
      have hk : pos % (s0 :: ss).length < (s0 :: ss).length :=
        Nat.mod_lt pos (Nat.succ_pos ss.length)
      have hcg : cycleGet s0 ss pos = (s0 :: ss).get ⟨pos % (s0 :: ss).length, hk⟩ := rfl
      rw [hcg, dictAppend_zip_set (s0 :: ss) vals _ hk r hnd hlen,
        ih _ (pos + 1) (by rw [List.length_set]; exact hlen)]
      simp only [valsRR, List.length_cons]
      rw [show pos + 1 + rest.length = pos + (rest.length + 1) by omega]

theorem whileLoop_succ_nil (senders : List Sender) (fuel : Nat) (d : Plan) (pos : Nat) :
    whileLoop senders (fuel + 1) d [] pos = some d := rfl

theorem whileLoop_succ_cons (s0 : Sender) (ss : List Sender) (fuel : Nat) (d : Plan)
    (r : Recipient) (rest : List Recipient) (pos : Nat) :
    whileLoop (s0 :: ss) (fuel + 1) d (r :: rest) pos =
      whileLoop (s0 :: ss) fuel (innerFor s0 ss (r :: rest) d pos).1 []
        (innerFor s0 ss (r :: rest) d pos).2 := rfl

theorem split_round_robin_eq (s0 : Sender) (ss : List Sender) (hnd : (s0 :: ss).Nodup)
    (R : List Recipient) :
    split_recipients_by_senders 2 (s0 :: ss) R =
      some ((s0 :: ss).zip
        (valsRR (s0 :: ss).length (List.replicate (s0 :: ss).length []) 0 R)) := by
  have hinit : dictInit (s0 :: ss) =
      (s0 :: ss).zip (List.replicate (s0 :: ss).length []) := by
    rw [dictInit_eq_map hnd, map_pair_eq_zip_replicate]
  unfold split_recipients_by_senders
  cases R with
  | nil =>
      rw [hinit]
      exact whileLoop_succ_nil (s0 :: ss) 1 _ 0
  | cons r rest =>
      show whileLoop (s0 :: ss) (1 + 1) (dictInit (s0 :: ss)) (r :: rest) 0 = _
      rw [whileLoop_succ_cons, hinit,
        innerFor_zip s0 ss hnd (r :: rest) _ 0 (by simp)]
      exact whileLoop_succ_nil (s0 :: ss) 0 _ _

theorem valsRR_getD (n : Nat) :
    ∀ (q : List Recipient) (vals : List (List Recipient)) (pos : Nat) (j : Nat),
    vals.length = n → j < n →
    (valsRR n vals pos q).getD j [] = vals.getD j [] ++ rrFrom n pos q j := by
  intro q
  induction q with
  | nil => intro vals pos j _ _; simp [valsRR, rrFrom]
  | cons r rest ih =>
      intro vals pos j hlen hj
      simp only [valsRR, rrFrom]
      rw [ih _ (pos + 1) j (by rw [List.length_set]; exact hlen) hj]
      by_cases hjk : j = pos % n
      · subst hjk
        rw [getD_set_self _ _ (by omega), if_pos (by simp)]
        simp
      · rw [getD_set_ne _ _ hjk, if_neg (by simp [Ne.symm hjk])]
        simp

theorem rrFrom_sublist (n : Nat) :
    ∀ (q : List Recipient) (pos j : Nat), List.Sublist (rrFrom n pos q j) q := by
  intro q
  induction q with
  | nil => intro pos j; simp [rrFrom]
  | cons r rest ih =>
      intro pos j
      simp only [rrFrom]
      split
      · simpa using List.Sublist.cons₂ r (ih (pos + 1) j)
      · simpa using List.Sublist.cons r (ih (pos + 1) j)

theorem rrFrom_mem_of_get? (n : Nat) :
    ∀ (q : List Recipient) (pos i : Nat) (r : Recipient),
    q.get? i = some r → r ∈ rrFrom n pos q ((pos + i) % n) := by
  intro q
  induction q with
  | nil => intro pos i r h; simp at h
  | cons r0 rest ih =>
      intro pos i r h
      cases i with
      | zero =>
          simp only [List.get?_cons_zero, Option.some.injEq] at h
          subst h
          simp [rrFrom]
      | succ i' =>
          have h' : rest.get? i' = some r := by simpa using h
          have hmem := ih (pos + 1) i' r h'
          simp only [rrFrom]
          rw [show pos + (i' + 1) = pos + 1 + i' by omega]
          exact List.mem_append_right _ hmem

theorem rrFrom_length_countP (n : Nat) :
    ∀ (q : List Recipient) (pos j : Nat),
    (rrFrom n pos q j).length =
      (List.range q.length).countP (fun i => (pos + i) % n == j) := by
  intro q
  induction q with
  | nil => intro pos j; simp [rrFrom]
  | cons r rest ih =>
      intro pos j
      simp only [rrFrom, List.length_append, List.length_cons]
      rw [ih (pos + 1) j, List.range_succ_eq_map, List.countP_cons, List.countP_map]
      have hc : ((fun i => (pos + i) % n == j) ∘ (· + 1)) =
          (fun i => (pos + 1 + i) % n == j) := by
        funext i
        simp only [Function.comp]
        rw [show pos + (i + 1) = pos + 1 + i by omega]
      rw [hc]
      rw [apply_ite List.length]
      simp only [List.length_singleton, List.length_nil, Nat.add_zero]
      split <;> omega

theorem countP_range_mod (n : Nat) (hn : 0 < n) (j : Nat) (hj : j < n) :
    ∀ m : Nat, (List.range m).countP (fun i => i % n == j) =
      m / n + if j < m % n then 1 else 0 := by
  intro m
  induction m with
  | zero => simp
  | succ m ih =>
      rw [List.range_succ, List.countP_append, ih]
      have hone : List.countP (fun i => i % n == j) [m] =
          if m % n = j then 1 else 0 := by
        simp [List.countP_cons, beq_iff_eq]
      rw [hone]
      have hdm := Nat.div_add_mod m n
      by_cases hd : m % n + 1 = n
      · have hdvd : n ∣ m + 1 := ⟨m / n + 1, by rw [Nat.mul_add, Nat.mul_one]; omega⟩
        have hdiv : (m + 1) / n = m / n + 1 := by
          rw [Nat.succ_div]
          simp [hdvd]
        have hmod : (m + 1) % n = 0 := (Nat.mod_eq_zero_of_dvd hdvd)
        rw [hdiv, hmod]
        split_ifs <;> omega
      · have hlt : m % n + 1 < n := by
          have := Nat.mod_lt m hn
          omega
        have hmod : (m + 1) % n = m % n + 1 := by
          conv_lhs => rw [show m + 1 = m % n + 1 + n * (m / n) by omega]
          rw [Nat.add_mul_mod_self_left]
          exact Nat.mod_eq_of_lt hlt
        have hdiv : (m + 1) / n = m / n := by
          conv_lhs => rw [show m + 1 = m % n + 1 + n * (m / n) by omega]
          rw [Nat.add_mul_div_left _ _ hn, Nat.div_eq_of_lt hlt]
          omega
        rw [hdiv, hmod]
        split_ifs <;> omega

theorem rrAssign_length (n : Nat) (hn : 0 < n) (R : List Recipient) (j : Nat)
    (hj : j < n) :
    (rrAssign n R j).length = R.length / n + if j < R.length % n then 1 else 0 := by
  unfold rrAssign
  rw [rrFrom_length_countP]
  have hfun : (fun i => (0 + i) % n == j) = (fun i => i % n == j) := by
    funext i
    simp
  rw [hfun, countP_range_mod n hn j hj]

theorem sum_map_range_ite (c : Nat) :
    ∀ (n k : Nat), k < n →
    ((List.range n).map (fun j => if k = j then c else 0)).sum = c := by
  intro n
  induction n with
  | zero => intro k hk; exact absurd hk (Nat.not_lt_zero k)
  | succ m ih =>
      intro k hk
      rw [List.range_succ, List.map_append, List.sum_append]
      by_cases hkm : k = m
      · subst hkm
        have hzero : ((List.range k).map (fun j => if k = j then c else 0)).sum = 0 := by
          apply List.sum_eq_zero
          intro x hx
          obtain ⟨j, hj, rfl⟩ := List.mem_map.mp hx
          have : j < k := List.mem_range.mp hj
          rw [if_neg (by omega)]
        simp [hzero]
      · have hk' : k < m := by omega
        rw [ih k hk']
        simp [hkm]

theorem sum_map_add (f g : Nat → Nat) :
    ∀ l : List Nat, (l.map (fun j => f j + g j)).sum = (l.map f).sum + (l.map g).sum := by
  intro l
  induction l with
  | nil => rfl
  | cons a l ih =>
      simp only [List.map_cons, List.sum_cons, ih]
      omega

theorem rrFrom_count_sum (n : Nat) (hn : 0 < n) (x : Recipient) :
    ∀ (q : List Recipient) (pos : Nat),
    ((List.range n).map (fun j => (rrFrom n pos q j).count x)).sum = q.count x := by
  intro q
  induction q with
  | nil => intro pos; simp [rrFrom]
  | cons r rest ih =>
      intro pos
      have hsplit : ∀ j : Nat, (rrFrom n pos (r :: rest) j).count x =
          (if pos % n = j then (if r = x then 1 else 0) else 0) +
            (rrFrom n (pos + 1) rest j).count x := by
        intro j
        simp only [rrFrom, List.count_append]
        congr 1
        by_cases hc : pos % n = j
        · rw [if_pos (by simpa using hc), if_pos hc]
          simp [List.count_singleton', beq_iff_eq]
        · rw [if_neg (by simpa using hc), if_neg hc]
          simp
      have hmap : ((List.range n).map (fun j => (rrFrom n pos (r :: rest) j).count x)).sum =
          ((List.range n).map (fun j =>
            (if pos % n = j then (if r = x then 1 else 0) else 0) +
              (rrFrom n (pos + 1) rest j).count x)).sum := by
        congr 1
        exact List.map_congr_left (fun j _ => hsplit j)
      rw [hmap, sum_map_add, sum_map_range_ite _ n (pos % n) (Nat.mod_lt pos hn),
        ih (pos + 1), List.count_cons]
      simp only [beq_iff_eq]
      by_cases hrx : r = x
      · simp [hrx]
        omega
      · simp [hrx]

theorem map_sum_eq_range_getD (f : List Recipient → Nat) :
    ∀ l : List (List Recipient),
    (l.map f).sum = ((List.range l.length).map (fun j => f (l.getD j []))).sum := by
  intro l
  induction l with
  | nil => rfl
  | cons v vs ih =>
      simp only [List.map_cons, List.sum_cons, List.length_cons]
      rw [List.range_succ_eq_map, List.map_cons, List.map_map, List.sum_cons]
      have hcomp : ((fun j => f ((v :: vs).getD j [])) ∘ (· + 1)) =
          (fun j => f (vs.getD j [])) := by
        funext j
        simp
      rw [hcomp, ih]
      simp

theorem mem_zip_exists_get :
    ∀ {l₁ : List Sender} {l₂ : List (List Recipient)} {p : Sender × List Recipient},
    p ∈ l₁.zip l₂ →
    ∃ j, ∃ hj : j < l₁.length, l₁.get ⟨j, hj⟩ = p.1 ∧ l₂.getD j [] = p.2 := by
  intro l₁
  induction l₁ with
  | nil => intro l₂ p hp; cases hp
  | cons s ss ih =>
      intro l₂ p hp
      cases l₂ with
      | nil => cases hp
      | cons v vs =>
          rcases List.mem_cons.mp hp with heq | hp
          · subst heq
            exact ⟨0, Nat.succ_pos _, rfl, rfl⟩
          · obtain ⟨j, hj, h1, h2⟩ := ih hp
            exact ⟨j + 1, by simpa using Nat.succ_lt_succ hj, h1, h2⟩

theorem planLookup_zip :
    ∀ (senders : List Sender) (vals : List (List Recipient)) (j : Nat)
      (hj : j < senders.length),
    senders.Nodup → vals.length = senders.length →
    planLookup (senders.zip vals) (senders.get ⟨j, hj⟩) = some (vals.getD j []) := by
  intro senders
  induction senders with
  | nil => intro vals j hj; exact absurd hj (by simp)
  | cons s ss ih =>
      intro vals j hj hnd hlen
      cases vals with
      | nil => simp at hlen
      | cons v vs =>
          simp only [List.length_cons] at hlen
          cases j with
          | zero =>
              show planLookup ((s, v) :: ss.zip vs) s = some ((v :: vs).getD 0 [])
              unfold planLookup
              rw [List.find?_cons_of_pos _ (by simp [Sender.pyEq_self])]
              rfl
          | succ j' =>
              have hj' : j' < ss.length := by simpa using hj
              have hne : Sender.pyEq s (ss.get ⟨j', hj'⟩) = false := by
                rw [Bool.eq_false_iff]
                intro hcon
                have heq : s = ss.get ⟨j', hj'⟩ := Sender.pyEq_iff.mp hcon
                have hmem : ss.get ⟨j', hj'⟩ ∈ ss := List.get_mem ss j' hj'
                rw [← heq] at hmem
                exact (List.nodup_cons.mp hnd).1 hmem
              show planLookup ((s, v) :: ss.zip vs) (ss.get ⟨j', hj'⟩) =
                some ((v :: vs).getD (j' + 1) [])
              unfold planLookup
              rw [List.find?_cons_of_neg _ (by simpa using hne)]
              exact ih vs j' hj' (List.nodup_cons.mp hnd).2 (by omega)

theorem split_fuel_stable (senders : List Sender) (R : List Recipient)
    (fuel : Nat) (hf : 2 ≤ fuel) :
    split_recipients_by_senders fuel senders R =
      split_recipients_by_senders 2 senders R := by
  obtain ⟨k, rfl⟩ : ∃ k, fuel = k + 2 := ⟨fuel - 2, by omega⟩
  unfold split_recipients_by_senders
  cases R with
  | nil =>
      rw [show k + 2 = (k + 1) + 1 by omega, whileLoop_succ_nil]
      exact (whileLoop_succ_nil senders 1 _ 0).symm
  | cons r rest =>
      cases senders with
      | nil =>
          rw [whileLoop_nil_senders _ _ _ 0 (by simp),
            whileLoop_nil_senders _ _ _ 0 (by simp)]
      | cons s0 ss =>
          rw [show k + 2 = (k + 1) + 1 by omega, whileLoop_succ_cons,
            whileLoop_succ_nil]
          show _ = whileLoop (s0 :: ss) (1 + 1) _ (r :: rest) 0
          rw [whileLoop_succ_cons]
          exact (whileLoop_succ_nil (s0 :: ss) 0 _ _).symm

/-- Counterexample to C1 as stated: with the duplicate-containing sender
list `[A, A, B]` and four recipients, the dict has the two keys `A` and
`B`, `A`'s sequence collects positions 0, 1 and 3 while `B` gets only
position 2, so the two senders' assigned counts differ by 2. -/
theorem C1_counterexample :
    split_recipients_by_senders 2 [exSenderA, exSenderA, exSenderB]
      [exRecipient "r0@x.com", exRecipient "r1@x.com", exRecipient "r2@x.com",
        exRecipient "r3@x.com"] =
      some [(exSenderA, [exRecipient "r0@x.com", exRecipient "r1@x.com",
              exRecipient "r3@x.com"]),
            (exSenderB, [exRecipient "r2@x.com"])] ∧
    ¬ ([exRecipient "r0@x.com", exRecipient "r1@x.com",
        exRecipient "r3@x.com"].length ≤ [exRecipient "r2@x.com"].length + 1) := by
  exact ⟨by decide, by decide⟩

/-- Claim C1 (amended): for every non-empty, duplicate-free sender list
and every recipient list, `split_recipients_by_senders` returns a plan
whose keys are exactly the senders in order (present even with zero
recipients); the `j`-th sender's sequence is exactly the recipients at
positions `≡ j (mod n)` in input order (`rrAssign`), which is a sublist
of `R`; the `i`-th recipient lands in the sequence of sender `i mod n`;
each recipient occurrence is assigned to exactly one sender (the counts
over the plan sum to the count in `R`); and any two assigned counts
differ by at most one. -/
theorem C1_round_robin_distribution (senders : List Sender) (R : List Recipient)
    (hne : senders ≠ []) (hnd : senders.Nodup) :
    ∃ plan, split_recipients_by_senders 2 senders R = some plan ∧
      plan.map Prod.fst = senders ∧
      (∀ j, ∀ hj : j < senders.length,
        planLookup plan (senders.get ⟨j, hj⟩) = some (rrAssign senders.length R j)) ∧
      (∀ j, List.Sublist (rrAssign senders.length R j) R) ∧
      (∀ i r, R.get? i = some r → r ∈ rrAssign senders.length R (i % senders.length)) ∧
      (∀ x : Recipient, (plan.map (fun e => e.2.count x)).sum = R.count x) ∧
      (∀ p q, p ∈ plan → q ∈ plan → p.2.length ≤ q.2.length + 1) := by
  obtain ⟨s0, ss, rfl⟩ : ∃ s0 ss, senders = s0 :: ss := by
    cases senders with
    | nil => exact absurd rfl hne
    | cons s0 ss => exact ⟨s0, ss, rfl⟩
  have hn0 : 0 < (s0 :: ss).length := Nat.succ_pos ss.length
  have hrealvals : (valsRR (s0 :: ss).length
      (List.replicate (s0 :: ss).length []) 0 R).length = (s0 :: ss).length := by
    rw [valsRR_length, List.length_replicate]
  have hgetD : ∀ j, j < (s0 :: ss).length →
      (valsRR (s0 :: ss).length (List.replicate (s0 :: ss).length []) 0 R).getD j [] =
        rrAssign (s0 :: ss).length R j := by
    intro j hj
    rw [valsRR_getD (s0 :: ss).length R _ 0 j (List.length_replicate _ _) hj,
      getD_replicate_nil]
    rfl
  refine ⟨(s0 :: ss).zip (valsRR (s0 :: ss).length
      (List.replicate (s0 :: ss).length []) 0 R),
    split_round_robin_eq s0 ss hnd R, ?_, ?_, ?_, ?_, ?_, ?_⟩
  · exact List.map_fst_zip _ _ (le_of_eq hrealvals.symm)
  · intro j hj
    rw [planLookup_zip (s0 :: ss) _ j hj hnd hrealvals, hgetD j hj]
  · intro j
    exact rrFrom_sublist _ R 0 j
  · intro i r h
    have := rrFrom_mem_of_get? (s0 :: ss).length R 0 i r h
    rwa [Nat.zero_add] at this
  · intro x
    have h1 : ((s0 :: ss).zip (valsRR (s0 :: ss).length
        (List.replicate (s0 :: ss).length []) 0 R)).map (fun e => e.2.count x) =
        ((valsRR (s0 :: ss).length
          (List.replicate (s0 :: ss).length []) 0 R).map (fun v => v.count x)) := by
      rw [show (fun (e : Sender × List Recipient) => e.2.count x) =
        ((fun v => v.count x) ∘ Prod.snd) from rfl, ← List.map_map,
        List.map_snd_zip _ _ (le_of_eq hrealvals)]
    rw [h1, map_sum_eq_range_getD, hrealvals]
    have h2 : ((List.range (s0 :: ss).length).map (fun j =>
        ((valsRR (s0 :: ss).length (List.replicate (s0 :: ss).length []) 0 R).getD
          j []).count x)).sum =
        ((List.range (s0 :: ss).length).map (fun j =>
          (rrFrom (s0 :: ss).length 0 R j).count x)).sum := by
      congr 1
      apply List.map_congr_left
      intro j hj
      rw [hgetD j (List.mem_range.mp hj)]
      rfl
    rw [h2, rrFrom_count_sum _ hn0 x R 0]
  · intro p q hp hq
    obtain ⟨jp, hjp, _, h2p⟩ := mem_zip_exists_get hp
    obtain ⟨jq, hjq, _, h2q⟩ := mem_zip_exists_get hq
    have hvp : p.2 = rrAssign (s0 :: ss).length R jp := by
      rw [← h2p, hgetD jp hjp]
    have hvq : q.2 = rrAssign (s0 :: ss).length R jq := by
      rw [← h2q, hgetD jq hjq]
    rw [hvp, hvq, rrAssign_length _ hn0 R jp hjp, rrAssign_length _ hn0 R jq hjq]
    split_ifs <;> omega

/-- Witness for C1's amended theorem at the scenario-1 senders and
recipients. -/
theorem C1_round_robin_distribution_witness :
    ∃ plan, split_recipients_by_senders 2 [exSenderA, exSenderB] exFive = some plan ∧
      plan.map Prod.fst = [exSenderA, exSenderB] ∧
      (∀ j, ∀ hj : j < ([exSenderA, exSenderB] : List Sender).length,
        planLookup plan (([exSenderA, exSenderB] : List Sender).get ⟨j, hj⟩) =
          some (rrAssign 2 exFive j)) ∧
      (∀ j, List.Sublist (rrAssign 2 exFive j) exFive) ∧
      (∀ i r, exFive.get? i = some r → r ∈ rrAssign 2 exFive (i % 2)) ∧
      (∀ x : Recipient, (plan.map (fun e => e.2.count x)).sum = exFive.count x) ∧
      (∀ p q, p ∈ plan → q ∈ plan → p.2.length ≤ q.2.length + 1) :=
  C1_round_robin_distribution [exSenderA, exSenderB] exFive (by simp) (by decide)

end Mailer
